import Mathlib

/-!
Verification of the model-path core (server/modelpath.go): reference
parsing, display names, manifest paths and blob paths. Go strings are
embedded as lists of characters; the string, path and filesystem
primitives used by the source are translated below, and the functions of
the source are translated on top of them.
-/

/-- Go strings are modelled as lists of characters. -/
abbrev GoStr : Type := List Char

/-- Embeds a Lean string literal as a GoStr. -/
def gs (s : String) : GoStr := s.data

/-- Model of strings.HasPrefix: does the second list start with the first. -/
def startsWithStr : GoStr → GoStr → Bool
  | [], _ => true
  | _ :: _, [] => false
  | p :: ps, c :: cs => p = c && startsWithStr ps cs

/-- Model of strings.Cut: split around the first occurrence of sep,
returning (before, after, found). -/
def cutStr (sep : GoStr) : GoStr → GoStr × GoStr × Bool
  | [] => if startsWithStr sep [] then ([], [], true) else ([], [], false)
  | c :: cs =>
    if startsWithStr sep (c :: cs) then ([], (c :: cs).drop sep.length, true)
    else
      let r := cutStr sep cs
      (c :: r.1, r.2.1, r.2.2)

/-- Model of strings.Split with a one-character separator: Go returns the
list of fields between occurrences of the separator, with Split of the
empty string being a single empty field. -/
def splitGo (sep : Char) : GoStr → List GoStr
  | [] => [[]]
  | c :: cs =>
    if c = sep then [] :: splitGo sep cs
    else
      match splitGo sep cs with
      | h :: t => (c :: h) :: t
      | [] => [[c]]

/-- Model of strings.ReplaceAll with one-character old and new strings,
which is how the source calls it. -/
def replaceAllChar (a b : Char) (s : GoStr) : GoStr :=
  s.map (fun c => if c = a then b else c)

/-- Model of strings.TrimPrefix: drop the leading pattern when present. -/
def trimLead (pre s : GoStr) : GoStr :=
  if startsWithStr pre s then s.drop pre.length else s

/-- Model of a Go string slice expression s[:n], which panics when n is
out of range; none models the panic. -/
def goSlice (s : GoStr) (n : Nat) : Option GoStr :=
  if n ≤ s.length then some (s.take n) else none

/-- Model of filepath.Join on Linux: empty elements are skipped and the
rest are joined with the separator. Clean is not modelled; the store root
is treated as an opaque already-cleaned path and every other component
joined by the source is a plain name without separators. -/
def joinNonEmpty : List GoStr → GoStr
  | [] => []
  | [e] => e
  | e :: es => e ++ '/' :: joinNonEmpty es

/-- Model of filepath.Join, see joinNonEmpty. -/
def filepathJoin (elems : List GoStr) : GoStr :=
  joinNonEmpty (elems.filter (fun e => ¬ (e = [])))

/-- Model of filepath.Dir on Linux: everything before the final separator,
with the Go conventions for a path without separators and for the root. -/
def filepathDir (p : GoStr) : GoStr :=
  match p.reverse.dropWhile (fun c => ¬ (c = '/')) with
  | [] => ['.']
  | _ :: rest => if rest = [] then ['/'] else rest.reverse

/-- Model of os.PathSeparator on Linux, the platform of the sources. -/
def osPathSeparator : Char := '/'

/-- The ModelPath structure of the source. -/
structure ModelPath where
  ProtocolScheme : GoStr
  Registry : GoStr
  Namespace : GoStr
  Repository : GoStr
  Tag : GoStr
deriving DecidableEq, Repr

/-- DefaultRegistry of the source. -/
def DefaultRegistry : GoStr := gs "registry.goobla.ai"

/-- DefaultNamespace of the source. -/
def DefaultNamespace : GoStr := gs "library"

/-- DefaultTag of the source. -/
def DefaultTag : GoStr := gs "latest"

/-- DefaultProtocolScheme of the source. -/
def DefaultProtocolScheme : GoStr := gs "https"

/-- The switch over len(parts) inside ParseModelPath, returning the
(registry, namespace, repository) triple it selects; any other count
keeps the defaults and the empty repository. -/
def splitSegments : List GoStr → GoStr × GoStr × GoStr
  | [a, b, c] => (a, b, c)
  | [a, b] => (DefaultRegistry, a, b)
  | [a] => (DefaultRegistry, DefaultNamespace, a)
  | _ => (DefaultRegistry, DefaultNamespace, [])

/-- The last step of ParseModelPath: cut the selected repository at the
first colon into repository and tag when a colon is present. -/
def parseFinish (scheme reg ns r : GoStr) : ModelPath :=
  if (cutStr [':'] r).2.2 = true then
    ⟨scheme, reg, ns, (cutStr [':'] r).1, (cutStr [':'] r).2.1⟩
  else
    ⟨scheme, reg, ns, r, DefaultTag⟩

/-- Translation of ParseModelPath: cut an optional scheme at the first
"://", normalise the OS path separator, split on the separator, assign
segments by count, then cut the repository at the first colon. -/
def ParseModelPath (name : GoStr) : ModelPath :=
  let c := cutStr (gs "://") name
  let scheme := if c.2.2 = true then c.1 else DefaultProtocolScheme
  let rest := if c.2.2 = true then c.2.1 else name
  let seg := splitSegments (splitGo '/' (replaceAllChar osPathSeparator '/' rest))
  parseFinish scheme seg.1 seg.2.1 seg.2.2

/-- Translation of GetFullTagname. -/
def GetFullTagname (mp : ModelPath) : GoStr :=
  mp.Registry ++ '/' :: mp.Namespace ++ '/' :: mp.Repository ++ ':' :: mp.Tag

/-- Translation of GetShortTagname. -/
def GetShortTagname (mp : ModelPath) : GoStr :=
  if mp.Registry = DefaultRegistry then
    if mp.Namespace = DefaultNamespace then
      mp.Repository ++ ':' :: mp.Tag
    else
      mp.Namespace ++ '/' :: mp.Repository ++ ':' :: mp.Tag
  else
    mp.Registry ++ '/' :: mp.Namespace ++ '/' :: mp.Repository ++ ':' :: mp.Tag

/-- The errors the translated functions can produce. invalidDigestFormat
is ErrInvalidDigestFormat, notExist is fs.ErrNotExist, mkdirFailed is the
wrapped os.MkdirAll error, and panicked models a Go runtime panic. -/
inductive GoErr where
  | invalidDigestFormat
  | notExist
  | mkdirFailed
  | panicked
deriving DecidableEq, Repr

/-- The model.Name value built by GetManifestPath; the type itself lives
outside the provided sources. -/
structure ModelName where
  Host : GoStr
  Namespace : GoStr
  Model : GoStr
  Tag : GoStr

/-- Translation of the GetManifestPath method. The name-validity
predicate IsValid and the encoding Filepath belong to the external
types/model package and the store root to the external envconfig package,
so all three are taken as parameters, mirroring the call order of the
source: validity first, then the store root lookup, then the join. -/
def ModelPath.GetManifestPath (isValid : ModelName → Bool)
    (fpathEnc : ModelName → GoStr) (models : Except GoErr GoStr)
    (mp : ModelPath) : Except GoErr GoStr :=
  let name : ModelName := ⟨mp.Registry, mp.Namespace, mp.Repository, mp.Tag⟩
  if isValid name = false then Except.error GoErr.notExist
  else
    match models with
    | Except.error e => Except.error e
    | Except.ok mdir => Except.ok (filepathJoin [mdir, gs "manifests", fpathEnc name])

/-- The character class [0-9a-fA-F] of the digest regular expression. -/
def isHexChar (c : Char) : Bool :=
  ('0' ≤ c && c ≤ '9') || ('a' ≤ c && c ≤ 'f') || ('A' ≤ c && c ≤ 'F')

/-- Model of the compiled regular expression
match of the pattern sha256[:-][0-9a-fA-F]\x7b64\x7d anchored at both ends. -/
def matchesDigestPattern (s : GoStr) : Bool :=
  decide (s.take 6 = gs "sha256") &&
    (match s.drop 6 with
     | sep :: rest =>
       (decide (sep = ':') || decide (sep = '-')) &&
         decide (rest.length = 64) && rest.all isHexChar
     | [] => false)

/-- The canonicalised digest of GetBlobsPath: ReplaceAll of ":" by "-". -/
def canonicalDigest (digest : GoStr) : GoStr :=
  replaceAllChar ':' '-' digest

/-- The hex variable of GetBlobsPath: TrimPrefix of "sha256-" applied to
the canonicalised digest. -/
def blobHex (digest : GoStr) : GoStr :=
  trimLead (gs "sha256-") (canonicalDigest digest)

/-- The old (legacy, unsharded) blob path probed by GetBlobsPath. -/
def legacyBlobPath (mdir digest : GoStr) : GoStr :=
  filepathJoin [mdir, gs "blobs", canonicalDigest digest]

/-- The sharded candidate path computed by GetBlobsPath. -/
def shardedBlobPath (mdir digest : GoStr) : GoStr :=
  filepathJoin [mdir, gs "blobs", (blobHex digest).take 2, canonicalDigest digest]

/-- The filesystem state visible to this core: the sets of paths that
exist as regular files and as directories. -/
structure Fs where
  files : List GoStr
  dirs : List GoStr
deriving DecidableEq, Repr

/-- Does a path occur in a path list. -/
def hasPath (l : List GoStr) (p : GoStr) : Bool :=
  l.any (fun q => q = p)

/-- Model of a successful os.Stat: the path exists as a file or as a
directory. -/
def statOk (fs : Fs) (p : GoStr) : Bool :=
  hasPath fs.files p || hasPath fs.dirs p

/-- Helper of ancestorPaths: the partial joins of the remaining segments
onto the accumulated path. -/
def ancestorsGo (acc : GoStr) : List GoStr → List GoStr
  | [] => [acc]
  | c :: cs => acc :: ancestorsGo (acc ++ '/' :: c) cs

/-- The path together with every parent os.MkdirAll walks through. -/
def ancestorPaths (p : GoStr) : List GoStr :=
  match splitGo '/' p with
  | [] => [p]
  | c :: cs => ancestorsGo c cs

/-- Model of os.MkdirAll: it fails when the path or one of its parents
exists as a regular file, and otherwise records the path and its parents
as directories; creating an already existing directory is not an error. -/
def mkdirAll (fs : Fs) (p : GoStr) : Except GoErr Fs :=
  if (ancestorPaths p).any (fun a => hasPath fs.files a) then
    Except.error GoErr.mkdirFailed
  else
    Except.ok ⟨fs.files, ancestorPaths p ++ fs.dirs⟩

/-- Translation of GetBlobsPath, with the store root mdir taken from the
external envconfig package as a parameter and the filesystem state passed
explicitly; the result pairs the returned value with the filesystem state
after the call. The slice expression hex[:2] of the source is modelled by
goSlice, whose out-of-range case is the panicked error. -/
def GetBlobsPath (fs : Fs) (mdir : GoStr) (digest : GoStr) :
    Except GoErr GoStr × Fs :=
  if digest ≠ [] ∧ matchesDigestPattern digest = false then
    (Except.error GoErr.invalidDigestFormat, fs)
  else if canonicalDigest digest = [] then
    match mkdirAll fs (filepathJoin [mdir, gs "blobs"]) with
    | Except.error e => (Except.error e, fs)
    | Except.ok fs' => (Except.ok (filepathJoin [mdir, gs "blobs"]), fs')
  else
    match goSlice (blobHex digest) 2 with
    | none => (Except.error GoErr.panicked, fs)
    | some h2 =>
      match mkdirAll fs (filepathDir (filepathJoin [mdir, gs "blobs", h2, canonicalDigest digest])) with
      | Except.error e => (Except.error e, fs)
      | Except.ok fs' =>
        if statOk fs' (legacyBlobPath mdir digest) = true then
          (Except.ok (legacyBlobPath mdir digest), fs')
        else
          (Except.ok (filepathJoin [mdir, gs "blobs", h2, canonicalDigest digest]), fs')

/-- Proof helper: no two adjacent separator characters occur. -/
def noDoubleSlash : GoStr → Bool
  | c :: c' :: cs => if c = '/' ∧ c' = '/' then false else noDoubleSlash (c' :: cs)
  | _ => true

/-- Proof-side description of the final colon split: either the selected
repository had a colon and was split at its first occurrence, or it had
none and the tag keeps its default. -/
def repoTagSplit (r : GoStr) (mp : ModelPath) : Prop :=
  (':' ∈ r → r = mp.Repository ++ ':' :: mp.Tag ∧ ':' ∉ mp.Repository) ∧
  (':' ∉ r → mp.Repository = r ∧ mp.Tag = DefaultTag)

/-- Modelled from the spec: the external name-validity predicate
(Name.IsValid of the types/model package) is outside the provided
sources; the identities it accepts have separator-free components — no
slash in any component, no colon in the repository — and a non-empty
namespace, which is what the round-trip property needs. -/
def ValidIdentity (mp : ModelPath) : Prop :=
  (∀ c ∈ mp.Registry, c ≠ '/') ∧ (∀ c ∈ mp.Namespace, c ≠ '/') ∧
  (∀ c ∈ mp.Repository, c ≠ '/') ∧ (∀ c ∈ mp.Tag, c ≠ '/') ∧
  (∀ c ∈ mp.Repository, c ≠ ':') ∧ mp.Namespace ≠ []

/-- Proof helper: the join of the accumulated path with the remaining
segments, mirroring how MkdirAll walks a path. -/
def fullJoinGo (acc : GoStr) : List GoStr → GoStr
  | [] => acc
  | c :: cs => fullJoinGo (acc ++ '/' :: c) cs

/-- Concrete 64-character hex block of lowercase digits. -/
def hexA : GoStr := List.replicate 64 'a'

/-- hexA with the final character upper-cased. -/
def hexB : GoStr := List.replicate 63 'a' ++ ['A']

/-- A canonical colon-separated digest over hexA. -/
def digestA : GoStr := gs "sha256:" ++ hexA

/-- A canonical colon-separated digest over hexB. -/
def digestB : GoStr := gs "sha256:" ++ hexB

/-- Decidable equality for Except results, used to evaluate the
translated functions on concrete stores. -/
instance decEqExcept {e a : Type} [DecidableEq e] [DecidableEq a] :
    DecidableEq (Except e a)
  | Except.error x, Except.error y =>
    if h : x = y then isTrue (by rw [h])
    else isFalse (by intro hc; injection hc with h2; exact h h2)
  | Except.error _, Except.ok _ => isFalse (by intro hc; cases hc)
  | Except.ok _, Except.error _ => isFalse (by intro hc; cases hc)
  | Except.ok x, Except.ok y =>
    if h : x = y then isTrue (by rw [h])
    else isFalse (by intro hc; injection hc with h2; exact h h2)

/-- A store with the legacy blob for digestA on disk and the sharded
directory aa also present as a directory. -/
def fsLegacyBoth : Fs :=
  ⟨[gs "m/blobs/sha256-" ++ hexA], [gs "m", gs "m/blobs", gs "m/blobs/aa"]⟩

/-- fsLegacyBoth after MkdirAll of the sharded parent directory. -/
def fsLegacyBoth2 : Fs :=
  ⟨fsLegacyBoth.files, ancestorPaths (gs "m/blobs/aa") ++ fsLegacyBoth.dirs⟩

/-- A store without the legacy blob where the sharded directory exists. -/
def fsShardOnly : Fs := ⟨[], [gs "m", gs "m/blobs", gs "m/blobs/aa"]⟩

/-- fsShardOnly after MkdirAll of the sharded parent directory. -/
def fsShardOnly2 : Fs :=
  ⟨fsShardOnly.files, ancestorPaths (gs "m/blobs/aa") ++ fsShardOnly.dirs⟩

/-- A store where the legacy blob for digestA exists but a stray regular
file named aa occupies the sharded parent directory path. -/
def fsShardBlocked : Fs :=
  ⟨[gs "m/blobs/aa", gs "m/blobs/sha256-" ++ hexA], [gs "m", gs "m/blobs"]⟩

/-- The filesystem state after creating m/blobs in an empty store. -/
def fsMB : Fs := ⟨[], [gs "m", gs "m/blobs"]⟩

/-- A store where a regular file occupies the path m/blobs. -/
def fsFileAtBlobs : Fs := ⟨[gs "m/blobs"], [gs "m"]⟩

/-- Proof helper: the two strings agree position by position up to
letter case — at every position the characters are equal or differ but
share the same lower-case form. -/
def sameUpToHexCase : GoStr → GoStr → Bool
  | [], [] => true
  | a :: as, b :: bs =>
    (a = b || (¬ (a = b) && a.toLower = b.toLower)) && sameUpToHexCase as bs
  | _, _ => false

/-!
Lemmas and claim theorems.
-/

/-!
String lemmas about the embedded Go primitives.
-/

theorem startsWithStr_eq_true_iff (p : GoStr) :
    ∀ s : GoStr, startsWithStr p s = true ↔ ∃ t, s = p ++ t := by
  induction p with
  | nil =>
    intro s
    simp [startsWithStr]
  | cons x xs ih =>
    intro s
    cases s with
    | nil =>
      simp [startsWithStr]
    | cons c cs =>
      simp only [startsWithStr, Bool.and_eq_true, decide_eq_true_eq, ih cs]
      constructor
      · rintro ⟨rfl, t, rfl⟩
        exact ⟨t, rfl⟩
      · rintro ⟨t, ht⟩
        cases ht
        exact ⟨rfl, t, rfl⟩

theorem cutStr_not_found (sep s : GoStr) (h : (cutStr sep s).2.2 = false) :
    cutStr sep s = (s, [], false) := by
  induction s with
  | nil =>
    by_cases hs : startsWithStr sep [] = true
    · simp [cutStr, hs] at h
    · simp [cutStr, hs]
  | cons c cs ih =>
    by_cases hs : startsWithStr sep (c :: cs) = true
    · simp [cutStr, hs] at h
    · simp only [cutStr, hs] at h ⊢
      simp only [Bool.false_eq_true, if_false] at h ⊢
      rw [ih h]

theorem cutStr_no_sub (sep s : GoStr) (h : ∀ u v, s ≠ u ++ (sep ++ v)) :
    (cutStr sep s).2.2 = false := by
  induction s with
  | nil =>
    by_cases hs : startsWithStr sep [] = true
    · rcases (startsWithStr_eq_true_iff sep []).mp hs with ⟨t, ht⟩
      exact absurd ht (h [] t)
    · simp [cutStr, hs]
  | cons c cs ih =>
    by_cases hs : startsWithStr sep (c :: cs) = true
    · rcases (startsWithStr_eq_true_iff sep (c :: cs)).mp hs with ⟨t, ht⟩
      exact absurd ht (h [] t)
    · simp only [cutStr, hs]
      simp only [Bool.false_eq_true, if_false]
      exact ih (fun u v hv => h (c :: u) v (by simpa using hv))

theorem cutStr_char_not_mem (c : Char) (s : GoStr) (h : c ∉ s) :
    cutStr [c] s = (s, [], false) := by
  apply cutStr_not_found
  apply cutStr_no_sub
  intro u v hv
  exact h (by rw [hv]; simp)

theorem cutStr_char_split (c : Char) (b a : GoStr) (h : c ∉ b) :
    cutStr [c] (b ++ c :: a) = (b, a, true) := by
  induction b with
  | nil =>
    have hs : startsWithStr [c] (c :: a) = true := by
      simp [startsWithStr]
    simp [cutStr, hs]
  | cons x b' ih =>
    have hx : ¬ (c = x) := fun hcx => h (by simp [hcx.symm])
    have hs : startsWithStr [c] (x :: (b' ++ c :: a)) = false := by
      simp [startsWithStr, hx]
    have ih' := ih (fun hm => h (List.mem_cons_of_mem x hm))
    simp only [List.cons_append, cutStr, List.append_eq, hs]
    rw [ih']
    simp

theorem cutStr_char_found (c : Char) (s : GoStr) (h : c ∈ s) :
    s = (cutStr [c] s).1 ++ c :: (cutStr [c] s).2.1 ∧
      c ∉ (cutStr [c] s).1 ∧ (cutStr [c] s).2.2 = true := by
  induction s with
  | nil => cases h
  | cons x xs ih =>
    by_cases hx : c = x
    · subst hx
      have hs : startsWithStr [c] (c :: xs) = true := by simp [startsWithStr]
      simp [cutStr, hs]
    · have hs : startsWithStr [c] (x :: xs) = false := by
        simp [startsWithStr, hx]
      have hm : c ∈ xs := by
        rcases List.mem_cons.mp h with h1 | h1
        · exact absurd h1 hx
        · exact h1
      rcases ih hm with ⟨h1, h2, h3⟩
      simp only [cutStr, hs]
      simp only [Bool.false_eq_true, if_false]
      refine ⟨by rw [List.cons_append, ← h1], ?_, h3⟩
      intro hmem
      rcases List.mem_cons.mp hmem with h4 | h4
      · exact hx h4
      · exact h2 h4

theorem splitGo_ne_nil (c : Char) (s : GoStr) : splitGo c s ≠ [] := by
  cases s with
  | nil => simp [splitGo]
  | cons x xs =>
    by_cases hx : x = c
    · simp [splitGo, hx]
    · simp only [splitGo, hx]
      simp only [Bool.false_eq_true, if_false]
      cases hsp : splitGo c xs with
      | nil => simp
      | cons h t => simp

theorem splitGo_no_sep (c : Char) (a : GoStr) (h : ∀ x ∈ a, x ≠ c) :
    splitGo c a = [a] := by
  induction a with
  | nil => rfl
  | cons x a' ih =>
    have hx : ¬ (x = c) := h x (List.mem_cons_self x a')
    have ha' : splitGo c a' = [a'] := ih (fun y hy => h y (List.mem_cons_of_mem x hy))
    simp [splitGo, hx, ha']

theorem splitGo_append (c : Char) (a b : GoStr) (h : ∀ x ∈ a, x ≠ c) :
    splitGo c (a ++ c :: b) = a :: splitGo c b := by
  induction a with
  | nil => simp [splitGo]
  | cons x a' ih =>
    have hx : ¬ (x = c) := h x (List.mem_cons_self x a')
    have ha' := ih (fun y hy => h y (List.mem_cons_of_mem x hy))
    simp [splitGo, hx, ha']

theorem replaceAllChar_self (c : Char) (s : GoStr) : replaceAllChar c c s = s := by
  have : (fun x => if x = c then c else x) = fun x : Char => x := by
    funext x
    by_cases hx : x = c <;> simp [hx]
  simp [replaceAllChar, this]

theorem noDoubleSlash_cons (c : Char) (t : GoStr) (h : c ≠ '/') :
    noDoubleSlash (c :: t) = noDoubleSlash t := by
  cases t with
  | nil => rfl
  | cons c' cs =>
    have : ¬ (c = '/' ∧ c' = '/') := fun hc => h hc.1
    simp [noDoubleSlash, this]

theorem noDoubleSlash_append (a t : GoStr) (h : ∀ x ∈ a, x ≠ '/') :
    noDoubleSlash (a ++ t) = noDoubleSlash t := by
  induction a with
  | nil => rfl
  | cons x a' ih =>
    rw [List.cons_append, noDoubleSlash_cons x _ (h x (List.mem_cons_self x a')),
      ih (fun y hy => h y (List.mem_cons_of_mem x hy))]

theorem noDoubleSlash_of_all (a : GoStr) (h : ∀ x ∈ a, x ≠ '/') :
    noDoubleSlash a = true := by
  rw [← List.append_nil a, noDoubleSlash_append a [] h]
  rfl

theorem noDoubleSlash_head (c : Char) (cs : GoStr) (h : c ≠ '/') :
    noDoubleSlash ('/' :: c :: cs) = noDoubleSlash (c :: cs) := by
  have hcond : ¬ ('/' = '/' ∧ c = '/') := fun hc => h hc.2
  show (if '/' = '/' ∧ c = '/' then false else noDoubleSlash (c :: cs)) = noDoubleSlash (c :: cs)
  rw [if_neg hcond]

theorem noDoubleSlash_tail (c : Char) (t : GoStr)
    (h : noDoubleSlash (c :: t) = true) : noDoubleSlash t = true := by
  cases t with
  | nil => rfl
  | cons c' cs =>
    by_cases hc : c = '/' ∧ c' = '/'
    · simp [noDoubleSlash, hc] at h
    · simpa [noDoubleSlash, hc] using h

theorem noDoubleSlash_no_sub (u : GoStr) :
    ∀ s : GoStr, noDoubleSlash s = true → ∀ v, s ≠ u ++ '/' :: '/' :: v := by
  induction u with
  | nil =>
    intro s h v hv
    rw [hv] at h
    simp [noDoubleSlash] at h
  | cons x u' ih =>
    intro s h v hv
    cases s with
    | nil => simp at hv
    | cons y ys =>
      rw [List.cons_append] at hv
      obtain ⟨hy, hys⟩ := List.cons.inj hv
      exact ih ys (noDoubleSlash_tail y ys h) v hys

theorem parseFinish_fields (scheme reg ns r : GoStr) :
    (parseFinish scheme reg ns r).ProtocolScheme = scheme ∧
    (parseFinish scheme reg ns r).Registry = reg ∧
    (parseFinish scheme reg ns r).Namespace = ns ∧
    repoTagSplit r (parseFinish scheme reg ns r) := by
  by_cases hm : ':' ∈ r
  · obtain ⟨he, hnb, hf⟩ := cutStr_char_found ':' r hm
    have hp : parseFinish scheme reg ns r =
        ⟨scheme, reg, ns, (cutStr [':'] r).1, (cutStr [':'] r).2.1⟩ := by
      simp [parseFinish, hf]
    rw [hp]
    exact ⟨rfl, rfl, rfl, fun _ => ⟨he, hnb⟩, fun hn => absurd hm hn⟩
  · have hc := cutStr_char_not_mem ':' r hm
    have hp : parseFinish scheme reg ns r = ⟨scheme, reg, ns, r, DefaultTag⟩ := by
      simp [parseFinish, hc]
    rw [hp]
    exact ⟨rfl, rfl, rfl, fun hmm => absurd hmm hm, fun _ => ⟨rfl, rfl⟩⟩

theorem parse_no_scheme (s : GoStr) (h : ∀ u v, s ≠ u ++ (gs "://" ++ v)) :
    ParseModelPath s =
      parseFinish DefaultProtocolScheme
        (splitSegments (splitGo '/' s)).1
        (splitSegments (splitGo '/' s)).2.1
        (splitSegments (splitGo '/' s)).2.2 := by
  have hf : (cutStr (gs "://") s).2.2 = false := cutStr_no_sub _ _ h
  have hcut := cutStr_not_found _ _ hf
  simp [ParseModelPath, hcut, osPathSeparator, replaceAllChar_self]

theorem no_scheme_of_noDoubleSlash (s : GoStr) (h : noDoubleSlash s = true) :
    ∀ u v, s ≠ u ++ (gs "://" ++ v) := by
  intro u v hv
  apply noDoubleSlash_no_sub (u ++ [':']) s h v
  rw [hv]
  have hg : gs "://" ++ v = ':' :: '/' :: '/' :: v := rfl
  rw [hg]
  simp [List.append_assoc]

theorem splitSegments_long (parts : List GoStr) (h : 4 ≤ parts.length) :
    splitSegments parts = (DefaultRegistry, DefaultNamespace, []) := by
  rcases parts with _ | ⟨a, _ | ⟨b, _ | ⟨c, _ | ⟨d, rest⟩⟩⟩⟩
  · simp at h
  · simp at h
  · simp at h
  · simp at h
  · rfl

/-- C4: for every input without a scheme marker, after separator
normalisation ParseModelPath assigns the slash-separated segments by
count — three set registry, namespace and repository, two set namespace
and repository, one sets the repository only, and any other count keeps
every default with an empty repository — and then splits the resolved
repository at its first colon into repository and tag. -/
theorem parse_segment_assignment (s : GoStr)
    (h : ∀ u v, s ≠ u ++ (gs "://" ++ v)) :
    (∀ a b c, splitGo '/' (replaceAllChar osPathSeparator '/' s) = [a, b, c] →
      (ParseModelPath s).Registry = a ∧ (ParseModelPath s).Namespace = b ∧
        repoTagSplit c (ParseModelPath s)) ∧
    (∀ a b, splitGo '/' (replaceAllChar osPathSeparator '/' s) = [a, b] →
      (ParseModelPath s).Registry = DefaultRegistry ∧
        (ParseModelPath s).Namespace = a ∧ repoTagSplit b (ParseModelPath s)) ∧
    (∀ a, splitGo '/' (replaceAllChar osPathSeparator '/' s) = [a] →
      (ParseModelPath s).Registry = DefaultRegistry ∧
        (ParseModelPath s).Namespace = DefaultNamespace ∧
        repoTagSplit a (ParseModelPath s)) ∧
    (4 ≤ (splitGo '/' (replaceAllChar osPathSeparator '/' s)).length →
      (ParseModelPath s).Registry = DefaultRegistry ∧
        (ParseModelPath s).Namespace = DefaultNamespace ∧
        (ParseModelPath s).Repository = [] ∧ (ParseModelPath s).Tag = DefaultTag) := by
  have hns : replaceAllChar osPathSeparator '/' s = s := replaceAllChar_self '/' s
  have hred := parse_no_scheme s h
  refine ⟨?_, ?_, ?_, ?_⟩
  · intro a b c hp
    rw [hns] at hp
    rw [hred, hp]
    exact ⟨(parseFinish_fields _ a b c).2.1, (parseFinish_fields _ a b c).2.2.1,
      (parseFinish_fields _ a b c).2.2.2⟩
  · intro a b hp
    rw [hns] at hp
    rw [hred, hp]
    exact ⟨(parseFinish_fields _ DefaultRegistry a b).2.1,
      (parseFinish_fields _ DefaultRegistry a b).2.2.1,
      (parseFinish_fields _ DefaultRegistry a b).2.2.2⟩
  · intro a hp
    rw [hns] at hp
    rw [hred, hp]
    exact ⟨(parseFinish_fields _ DefaultRegistry DefaultNamespace a).2.1,
      (parseFinish_fields _ DefaultRegistry DefaultNamespace a).2.2.1,
      (parseFinish_fields _ DefaultRegistry DefaultNamespace a).2.2.2⟩
  · intro hp
    rw [hns] at hp
    rw [hred, splitSegments_long _ hp]
    have hfin := parseFinish_fields DefaultProtocolScheme DefaultRegistry DefaultNamespace []
    refine ⟨hfin.2.1, hfin.2.2.1, ?_, ?_⟩
    · exact (hfin.2.2.2.2 (by simp)).1
    · exact (hfin.2.2.2.2 (by simp)).2

/-- Witness for parse_segment_assignment at concrete inputs of one, two,
three and five segments. -/
theorem parse_segment_assignment_witness :
    ((ParseModelPath (gs "r/n/m:t")).Registry = gs "r" ∧
      (ParseModelPath (gs "r/n/m:t")).Namespace = gs "n" ∧
      repoTagSplit (gs "m:t") (ParseModelPath (gs "r/n/m:t"))) ∧
    ((ParseModelPath (gs "n/m")).Registry = DefaultRegistry ∧
      (ParseModelPath (gs "n/m")).Namespace = gs "n" ∧
      repoTagSplit (gs "m") (ParseModelPath (gs "n/m"))) ∧
    ((ParseModelPath (gs "m:t")).Registry = DefaultRegistry ∧
      (ParseModelPath (gs "m:t")).Namespace = DefaultNamespace ∧
      repoTagSplit (gs "m:t") (ParseModelPath (gs "m:t"))) ∧
    ((ParseModelPath (gs "a/b/c/d/e")).Registry = DefaultRegistry ∧
      (ParseModelPath (gs "a/b/c/d/e")).Namespace = DefaultNamespace ∧
      (ParseModelPath (gs "a/b/c/d/e")).Repository = [] ∧
      (ParseModelPath (gs "a/b/c/d/e")).Tag = DefaultTag) :=
  ⟨(parse_segment_assignment (gs "r/n/m:t")
        (no_scheme_of_noDoubleSlash _ (by decide))).1 (gs "r") (gs "n") (gs "m:t")
      (by decide),
   (parse_segment_assignment (gs "n/m")
        (no_scheme_of_noDoubleSlash _ (by decide))).2.1 (gs "n") (gs "m") (by decide),
   (parse_segment_assignment (gs "m:t")
        (no_scheme_of_noDoubleSlash _ (by decide))).2.2.1 (gs "m:t") (by decide),
   (parse_segment_assignment (gs "a/b/c/d/e")
        (no_scheme_of_noDoubleSlash _ (by decide))).2.2.2 (by decide)⟩

/-- C7: GetShortTagname elides the registry and the namespace exactly
when they equal their defaults — both default gives repository:tag, only
the registry default gives namespace/repository:tag, and a non-default
registry gives the fully qualified form regardless of the namespace. -/
theorem shortTagname_cases (mp : ModelPath) :
    (mp.Registry = DefaultRegistry → mp.Namespace = DefaultNamespace →
      GetShortTagname mp = mp.Repository ++ ':' :: mp.Tag) ∧
    (mp.Registry = DefaultRegistry → ¬ mp.Namespace = DefaultNamespace →
      GetShortTagname mp = mp.Namespace ++ '/' :: mp.Repository ++ ':' :: mp.Tag) ∧
    (¬ mp.Registry = DefaultRegistry →
      GetShortTagname mp =
        mp.Registry ++ '/' :: mp.Namespace ++ '/' :: mp.Repository ++ ':' :: mp.Tag) :=
  ⟨fun h1 h2 => by simp [GetShortTagname, h1, h2],
   fun h1 h2 => by simp [GetShortTagname, h1, h2],
   fun h1 => by simp [GetShortTagname, h1]⟩

/-- Witness for shortTagname_cases at one identity per case. -/
theorem shortTagname_cases_witness :
    GetShortTagname ⟨DefaultProtocolScheme, DefaultRegistry, DefaultNamespace,
        gs "m", gs "t"⟩ = gs "m" ++ ':' :: gs "t" ∧
    GetShortTagname ⟨DefaultProtocolScheme, DefaultRegistry, gs "ns", gs "m", gs "t"⟩ =
      gs "ns" ++ '/' :: gs "m" ++ ':' :: gs "t" ∧
    GetShortTagname ⟨DefaultProtocolScheme, gs "r.example", gs "ns", gs "m", gs "t"⟩ =
      gs "r.example" ++ '/' :: gs "ns" ++ '/' :: gs "m" ++ ':' :: gs "t" :=
  ⟨(shortTagname_cases _).1 rfl rfl,
   (shortTagname_cases _).2.1 rfl (by decide),
   (shortTagname_cases _).2.2 (by decide)⟩

/-- Counterexample to C8: the input "://a//b:" carries an explicitly
empty scheme, namespace segment and tag, and ParseModelPath copies them
verbatim, so protocolScheme, namespace and tag come out empty rather than
non-empty. -/
theorem parse_nonempty_fields_cex :
    (ParseModelPath (gs "://a//b:")).ProtocolScheme = [] ∧
    (ParseModelPath (gs "://a//b:")).Namespace = [] ∧
    (ParseModelPath (gs "://a//b:")).Tag = [] := by decide

theorem parse_finish_general (s : GoStr) :
    ∀ sch rest : GoStr,
      sch = (if (cutStr (gs "://") s).2.2 = true then (cutStr (gs "://") s).1
             else DefaultProtocolScheme) →
      rest = (if (cutStr (gs "://") s).2.2 = true then (cutStr (gs "://") s).2.1
              else s) →
      ParseModelPath s = parseFinish sch
        (splitSegments (splitGo '/' (replaceAllChar osPathSeparator '/' rest))).1
        (splitSegments (splitGo '/' (replaceAllChar osPathSeparator '/' rest))).2.1
        (splitSegments (splitGo '/' (replaceAllChar osPathSeparator '/' rest))).2.2 := by
  intro sch rest h1 h2
  subst h1
  subst h2
  rfl

/-- C8 as amended: for every input string ParseModelPath returns without
failing; the protocol scheme equals its non-empty default exactly when no
scheme marker is present and is otherwise copied verbatim from before the
marker, and on the remainder after the optional scheme cut, registry and
namespace equal their non-empty defaults when fewer than three
(respectively two) segments are present, and the tag equals its non-empty
default when the selected repository carries no colon; components
explicitly present but empty are copied verbatim, so those fields can be
empty. -/
theorem parse_total_with_defaults (s : GoStr) :
    ((cutStr (gs "://") s).2.2 = false →
      (ParseModelPath s).ProtocolScheme = DefaultProtocolScheme) ∧
    ((cutStr (gs "://") s).2.2 = true →
      (ParseModelPath s).ProtocolScheme = (cutStr (gs "://") s).1) ∧
    DefaultProtocolScheme ≠ [] ∧ DefaultRegistry ≠ [] ∧
    DefaultNamespace ≠ [] ∧ DefaultTag ≠ [] ∧
    (∀ rest : GoStr,
      rest = (if (cutStr (gs "://") s).2.2 = true then (cutStr (gs "://") s).2.1
              else s) →
      ((splitGo '/' (replaceAllChar osPathSeparator '/' rest)).length = 1 →
        (ParseModelPath s).Registry = DefaultRegistry ∧
          (ParseModelPath s).Namespace = DefaultNamespace) ∧
      ((splitGo '/' (replaceAllChar osPathSeparator '/' rest)).length = 2 →
        (ParseModelPath s).Registry = DefaultRegistry) ∧
      (':' ∉ (splitSegments (splitGo '/' (replaceAllChar osPathSeparator '/' rest))).2.2 →
        (ParseModelPath s).Tag = DefaultTag)) := by
  have key := parse_finish_general s _ _ rfl rfl
  refine ⟨?_, ?_, by decide, by decide, by decide, by decide, ?_⟩
  · intro hf
    rw [key, (parseFinish_fields _ _ _ _).1, hf]
    simp
  · intro hf
    rw [key, (parseFinish_fields _ _ _ _).1, hf]
    simp
  · intro rest hrest
    subst hrest
    refine ⟨?_, ?_, ?_⟩
    · intro hlen
      obtain ⟨a, ha⟩ := List.length_eq_one.mp hlen
      rw [key, ha]
      exact ⟨(parseFinish_fields _ DefaultRegistry DefaultNamespace a).2.1,
        (parseFinish_fields _ DefaultRegistry DefaultNamespace a).2.2.1⟩
    · intro hlen
      obtain ⟨a, b, hab⟩ := List.length_eq_two.mp hlen
      rw [key, hab]
      exact (parseFinish_fields _ DefaultRegistry a b).2.1
    · intro hnc
      rw [key]
      exact ((parseFinish_fields _ _ _ _).2.2.2.2 hnc).2

/-- Witness for parse_total_with_defaults at the scheme-free input
"llama" and the scheme-carrying input "https://llama": the absent parts
of both come out as the defaults and the scheme of the second is copied
verbatim. -/
theorem parse_total_with_defaults_witness :
    (ParseModelPath (gs "llama")).ProtocolScheme = DefaultProtocolScheme ∧
    (ParseModelPath (gs "https://llama")).ProtocolScheme =
      (cutStr (gs "://") (gs "https://llama")).1 ∧
    (ParseModelPath (gs "https://llama")).Registry = DefaultRegistry ∧
    (ParseModelPath (gs "https://llama")).Namespace = DefaultNamespace ∧
    (ParseModelPath (gs "https://llama")).Tag = DefaultTag :=
  ⟨(parse_total_with_defaults (gs "llama")).1 (by decide),
   (parse_total_with_defaults (gs "https://llama")).2.1 (by decide),
   (((parse_total_with_defaults (gs "https://llama")).2.2.2.2.2.2 _ rfl).1
       (by decide)).1,
   (((parse_total_with_defaults (gs "https://llama")).2.2.2.2.2.2 _ rfl).1
       (by decide)).2,
   ((parse_total_with_defaults (gs "https://llama")).2.2.2.2.2.2 _ rfl).2.2
     (by decide)⟩

/-- C5: parsing the full tag name reproduces the registry, namespace,
repository and tag of any valid identity — parsing is a left inverse of
the canonical serialisation. -/
theorem parse_fullTagname_roundTrip (mp : ModelPath) (h : ValidIdentity mp) :
    (ParseModelPath (GetFullTagname mp)).Registry = mp.Registry ∧
    (ParseModelPath (GetFullTagname mp)).Namespace = mp.Namespace ∧
    (ParseModelPath (GetFullTagname mp)).Repository = mp.Repository ∧
    (ParseModelPath (GetFullTagname mp)).Tag = mp.Tag := by
  obtain ⟨hr, hn, hp, ht, hpc, hne⟩ := h
  have hshape : GetFullTagname mp =
      mp.Registry ++ '/' :: (mp.Namespace ++ '/' :: (mp.Repository ++ ':' :: mp.Tag)) := by
    simp [GetFullTagname, List.append_assoc]
  have hWns : ∀ x ∈ mp.Repository ++ ':' :: mp.Tag, x ≠ '/' := by
    intro x hx
    rcases List.mem_append.mp hx with h1 | h1
    · exact hp x h1
    · rcases List.mem_cons.mp h1 with h2 | h2
      · rw [h2]; decide
      · exact ht x h2
  have hnds : noDoubleSlash (GetFullTagname mp) = true := by
    rw [hshape, noDoubleSlash_append _ _ hr]
    cases hN : mp.Namespace with
    | nil => exact absurd hN hne
    | cons n0 ns' =>
      have hn0 : n0 ≠ '/' := hn n0 (by rw [hN]; exact List.mem_cons_self _ _)
      rw [List.cons_append, noDoubleSlash_head _ _ hn0, noDoubleSlash_cons _ _ hn0,
        noDoubleSlash_append ns' _
          (fun y hy => hn y (by rw [hN]; exact List.mem_cons_of_mem _ hy))]
      cases hP : mp.Repository with
      | nil =>
        rw [List.nil_append, noDoubleSlash_head _ _ (by decide),
          noDoubleSlash_cons _ _ (by decide)]
        exact noDoubleSlash_of_all _ ht
      | cons p0 ps' =>
        have hp0 : p0 ≠ '/' := hp p0 (by rw [hP]; exact List.mem_cons_self _ _)
        rw [List.cons_append, noDoubleSlash_head _ _ hp0, noDoubleSlash_cons _ _ hp0,
          noDoubleSlash_append ps' _
            (fun y hy => hp y (by rw [hP]; exact List.mem_cons_of_mem _ hy)),
          noDoubleSlash_cons _ _ (by decide)]
        exact noDoubleSlash_of_all _ ht
  have hred := parse_no_scheme (GetFullTagname mp)
    (no_scheme_of_noDoubleSlash _ hnds)
  have hsplit : splitGo '/' (GetFullTagname mp) =
      [mp.Registry, mp.Namespace, mp.Repository ++ ':' :: mp.Tag] := by
    rw [hshape, splitGo_append '/' mp.Registry _ hr,
      splitGo_append '/' mp.Namespace _ hn, splitGo_no_sep '/' _ hWns]
  have hcut : cutStr [':'] (mp.Repository ++ ':' :: mp.Tag) =
      (mp.Repository, mp.Tag, true) :=
    cutStr_char_split ':' _ _ (fun hm => hpc ':' hm rfl)
  have hfin : parseFinish DefaultProtocolScheme mp.Registry mp.Namespace
      (mp.Repository ++ ':' :: mp.Tag) =
      ⟨DefaultProtocolScheme, mp.Registry, mp.Namespace, mp.Repository, mp.Tag⟩ := by
    simp [parseFinish, hcut]
  rw [hred, hsplit]
  show (parseFinish DefaultProtocolScheme mp.Registry mp.Namespace
      (mp.Repository ++ ':' :: mp.Tag)).Registry = mp.Registry ∧
    (parseFinish DefaultProtocolScheme mp.Registry mp.Namespace
      (mp.Repository ++ ':' :: mp.Tag)).Namespace = mp.Namespace ∧
    (parseFinish DefaultProtocolScheme mp.Registry mp.Namespace
      (mp.Repository ++ ':' :: mp.Tag)).Repository = mp.Repository ∧
    (parseFinish DefaultProtocolScheme mp.Registry mp.Namespace
      (mp.Repository ++ ':' :: mp.Tag)).Tag = mp.Tag
  rw [hfin]
  exact ⟨rfl, rfl, rfl, rfl⟩

/-- Witness for parse_fullTagname_roundTrip at a concrete identity. -/
theorem parse_fullTagname_roundTrip_witness :
    (ParseModelPath (GetFullTagname
        ⟨gs "https", gs "example.com", gs "research", gs "llama", gs "13b"⟩)).Registry =
      gs "example.com" ∧
    (ParseModelPath (GetFullTagname
        ⟨gs "https", gs "example.com", gs "research", gs "llama", gs "13b"⟩)).Namespace =
      gs "research" ∧
    (ParseModelPath (GetFullTagname
        ⟨gs "https", gs "example.com", gs "research", gs "llama", gs "13b"⟩)).Repository =
      gs "llama" ∧
    (ParseModelPath (GetFullTagname
        ⟨gs "https", gs "example.com", gs "research", gs "llama", gs "13b"⟩)).Tag =
      gs "13b" :=
  parse_fullTagname_roundTrip
    ⟨gs "https", gs "example.com", gs "research", gs "llama", gs "13b"⟩
    (by refine ⟨?_, ?_, ?_, ?_, ?_, ?_⟩ <;> decide)

/-- C6: GetManifestPath returns the not-exist error whenever the external
validity predicate rejects the identity, for every store-root outcome —
the embedding performs no filesystem operation and does not even consult
the store root in that case — and on success returns
modelsRoot/manifests/encoding-of-name. -/
theorem manifestPath_validity (isValid : ModelName → Bool)
    (fpathEnc : ModelName → GoStr) (models : Except GoErr GoStr) (mp : ModelPath) :
    (isValid ⟨mp.Registry, mp.Namespace, mp.Repository, mp.Tag⟩ = false →
      ModelPath.GetManifestPath isValid fpathEnc models mp =
        Except.error GoErr.notExist) ∧
    (∀ mdir, isValid ⟨mp.Registry, mp.Namespace, mp.Repository, mp.Tag⟩ = true →
      models = Except.ok mdir →
      ModelPath.GetManifestPath isValid fpathEnc models mp =
        Except.ok (filepathJoin [mdir, gs "manifests",
          fpathEnc ⟨mp.Registry, mp.Namespace, mp.Repository, mp.Tag⟩])) := by
  constructor
  · intro hv
    simp [ModelPath.GetManifestPath, hv]
  · intro mdir hv hm
    simp [ModelPath.GetManifestPath, hv, hm]

/-- Witness for manifestPath_validity: a rejecting predicate yields the
not-exist error even when the store root lookup would fail, and an
accepting predicate yields the composed manifest path. -/
theorem manifestPath_validity_witness :
    ModelPath.GetManifestPath (fun _ => false) (fun _ => [])
        (Except.error GoErr.mkdirFailed)
        ⟨gs "https", DefaultRegistry, DefaultNamespace, gs "m", gs "t"⟩ =
      Except.error GoErr.notExist ∧
    ModelPath.GetManifestPath (fun _ => true) (fun n => n.Model)
        (Except.ok (gs "root"))
        ⟨gs "https", DefaultRegistry, DefaultNamespace, gs "m", gs "t"⟩ =
      Except.ok (filepathJoin [gs "root", gs "manifests", gs "m"]) :=
  ⟨(manifestPath_validity (fun _ => false) (fun _ => [])
      (Except.error GoErr.mkdirFailed) _).1 rfl,
   (manifestPath_validity (fun _ => true) (fun n => n.Model)
      (Except.ok (gs "root")) _).2 (gs "root") rfl rfl⟩

/-!
Digest lemmas.
-/

theorem matches_decomp (d : GoStr) (h : matchesDigestPattern d = true) :
    ∃ sep rest, d = gs "sha256" ++ sep :: rest ∧ (sep = ':' ∨ sep = '-') ∧
      rest.length = 64 ∧ rest.all isHexChar = true := by
  unfold matchesDigestPattern at h
  rcases hd : d.drop 6 with _ | ⟨sep, rest⟩ <;> rw [hd] at h
  · simp at h
  · simp only [Bool.and_eq_true, Bool.or_eq_true, decide_eq_true_eq] at h
    refine ⟨sep, rest, ?_, ?_, ?_, ?_⟩
    · rw [← h.1, ← hd]
      exact (List.take_append_drop 6 d).symm
    · exact h.2.1.1
    · exact h.2.1.2
    · exact h.2.2

theorem hexChar_ne_colon (c : Char) (h : isHexChar c = true) : c ≠ ':' := by
  intro hc
  rw [hc] at h
  exact absurd h (by decide)

theorem hexChar_ne_slash (c : Char) (h : isHexChar c = true) : c ≠ '/' := by
  intro hc
  rw [hc] at h
  exact absurd h (by decide)

theorem map_id_of_all (f : Char → Char) (l : GoStr) (h : ∀ x ∈ l, f x = x) :
    l.map f = l := by
  induction l with
  | nil => rfl
  | cons x xs ih =>
    rw [List.map_cons, h x (List.mem_cons_self x xs),
      ih (fun y hy => h y (List.mem_cons_of_mem x hy))]

theorem startsWith_self_append (p t : GoStr) : startsWithStr p (p ++ t) = true :=
  (startsWithStr_eq_true_iff p (p ++ t)).mpr ⟨t, rfl⟩

theorem canonicalDigest_of_matches (d : GoStr) (h : matchesDigestPattern d = true) :
    canonicalDigest d = gs "sha256-" ++ d.drop 7 := by
  obtain ⟨sep, rest, hdeq, hsep, hlen, hhex⟩ := matches_decomp d h
  have hmap : rest.map (fun c => if c = ':' then '-' else c) = rest := by
    apply map_id_of_all
    intro x hx
    have : isHexChar x = true := by
      rw [List.all_eq_true] at hhex
      exact hhex x hx
    rw [if_neg (hexChar_ne_colon x this)]
  have hsep' : (if sep = ':' then '-' else sep) = '-' := by
    rcases hsep with h1 | h1 <;> simp [h1]
  have hd7 : d.drop 7 = rest := by
    rw [hdeq]
    rfl
  rw [hd7, hdeq, canonicalDigest, replaceAllChar, List.map_append, List.map_cons,
    hmap, hsep']
  rfl

theorem blobHex_of_matches (d : GoStr) (h : matchesDigestPattern d = true) :
    blobHex d = d.drop 7 ∧ (blobHex d).length = 64 := by
  obtain ⟨sep, rest, hdeq, hsep, hlen, hhex⟩ := matches_decomp d h
  have hc := canonicalDigest_of_matches d h
  have hd7 : d.drop 7 = rest := by
    rw [hdeq]
    rfl
  have hbh : blobHex d = rest := by
    rw [blobHex, hc, hd7, trimLead, if_pos (startsWith_self_append _ _)]
    rfl
  rw [hbh, hd7]
  exact ⟨rfl, hlen⟩

theorem goSlice_of_matches (d : GoStr) (h : matchesDigestPattern d = true) :
    goSlice (blobHex d) 2 = some ((blobHex d).take 2) := by
  obtain ⟨-, hlen⟩ := blobHex_of_matches d h
  rw [goSlice, if_pos (by rw [hlen]; norm_num)]

/-!
Path lemmas.
-/

theorem filepathJoin_three (a b x : GoStr) (hb : b ≠ []) (hx : x ≠ []) :
    filepathJoin [a, b, x] = filepathJoin [a, b] ++ '/' :: x := by
  by_cases ha : a = []
  · subst ha
    simp [filepathJoin, joinNonEmpty, hb, hx]
  · simp [filepathJoin, joinNonEmpty, ha, hb, hx, List.append_assoc]

theorem filepathJoin_four (a b h x : GoStr) (hb : b ≠ []) (hh : h ≠ []) (hx : x ≠ []) :
    filepathJoin [a, b, h, x] = filepathJoin [a, b, h] ++ '/' :: x := by
  by_cases ha : a = []
  · subst ha
    simp [filepathJoin, joinNonEmpty, hb, hh, hx, List.append_assoc]
  · simp [filepathJoin, joinNonEmpty, ha, hb, hh, hx, List.append_assoc]

theorem dropWhile_all_append (p : Char → Bool) (a b : GoStr)
    (h : ∀ c ∈ a, p c = true) :
    List.dropWhile p (a ++ b) = List.dropWhile p b := by
  induction a with
  | nil => rfl
  | cons y ys ih =>
    rw [List.cons_append, List.dropWhile_cons,
      if_pos (h y (List.mem_cons_self y ys)),
      ih (fun c hc => h c (List.mem_cons_of_mem y hc))]

theorem filepathDir_append (q x : GoStr) (hq : q ≠ []) (_hx : x ≠ [])
    (hxs : ∀ c ∈ x, c ≠ '/') : filepathDir (q ++ '/' :: x) = q := by
  have hrw : List.dropWhile (fun c => ¬ (c = '/')) ((q ++ '/' :: x).reverse) =
      '/' :: q.reverse := by
    rw [List.reverse_append, List.reverse_cons, List.append_assoc]
    rw [dropWhile_all_append _ _ _
      (fun c hc => by simp [hxs c (List.mem_reverse.mp hc)])]
    rw [List.singleton_append, List.dropWhile_cons, if_neg (by simp)]
  unfold filepathDir
  rw [hrw]
  have hqr : ¬ (q.reverse = []) := by simp [hq]
  simp [hqr]

/-!
Filesystem lemmas.
-/

theorem fullJoinGo_shift (parts : List GoStr) :
    ∀ a b : GoStr, fullJoinGo (a ++ b) parts = a ++ fullJoinGo b parts := by
  induction parts with
  | nil => intro a b; rfl
  | cons c cs ih =>
    intro a b
    show fullJoinGo ((a ++ b) ++ '/' :: c) cs = a ++ fullJoinGo (b ++ '/' :: c) cs
    rw [List.append_assoc]
    exact ih a (b ++ '/' :: c)

theorem fullJoinGo_acc (parts : List GoStr) :
    ∀ acc : GoStr, ∃ t, fullJoinGo acc parts = acc ++ t := by
  induction parts with
  | nil => intro acc; exact ⟨[], by simp [fullJoinGo]⟩
  | cons c cs ih =>
    intro acc
    obtain ⟨t, ht⟩ := ih (acc ++ '/' :: c)
    exact ⟨'/' :: c ++ t, by
      show fullJoinGo (acc ++ '/' :: c) cs = _
      rw [ht, List.append_assoc]⟩

theorem ancestorsGo_mem (parts : List GoStr) :
    ∀ acc e, e ∈ ancestorsGo acc parts → ∃ t, fullJoinGo acc parts = e ++ t := by
  induction parts with
  | nil =>
    intro acc e he
    rcases List.mem_singleton.mp he with rfl
    exact ⟨[], by simp [fullJoinGo]⟩
  | cons c cs ih =>
    intro acc e he
    rcases List.mem_cons.mp he with rfl | he'
    · obtain ⟨t, ht⟩ := fullJoinGo_acc cs (e ++ '/' :: c)
      exact ⟨'/' :: c ++ t, by
        show fullJoinGo (e ++ '/' :: c) cs = _
        rw [ht, List.append_assoc]⟩
    · exact ih (acc ++ '/' :: c) e he'

theorem splitGo_fullJoin (s : GoStr) :
    ∀ c cs, splitGo '/' s = c :: cs → fullJoinGo c cs = s := by
  induction s with
  | nil =>
    intro c cs h
    simp only [splitGo] at h
    obtain ⟨rfl, rfl⟩ := List.cons.inj h
    rfl
  | cons x xs ih =>
    intro c cs h
    by_cases hx : x = '/'
    · subst hx
      simp only [splitGo, if_pos rfl] at h
      obtain ⟨rfl, rfl⟩ := List.cons.inj h
      rcases hsp : splitGo '/' xs with _ | ⟨c', cs'⟩
      · exact absurd hsp (splitGo_ne_nil '/' xs)
      · show fullJoinGo ([] ++ '/' :: c') cs' = '/' :: xs
        rw [List.nil_append]
        have : fullJoinGo (['/'] ++ c') cs' = ['/'] ++ fullJoinGo c' cs' :=
          fullJoinGo_shift cs' ['/'] c'
        rw [show ('/' :: c' : GoStr) = ['/'] ++ c' from rfl, this, ih c' cs' hsp]
        rfl
    · rcases hsp : splitGo '/' xs with _ | ⟨c', cs'⟩
      · exact absurd hsp (splitGo_ne_nil '/' xs)
      · simp only [splitGo, hx, hsp] at h
        simp only [Bool.false_eq_true, if_false] at h
        obtain ⟨rfl, rfl⟩ := List.cons.inj h
        have : fullJoinGo ([x] ++ c') cs' = [x] ++ fullJoinGo c' cs' :=
          fullJoinGo_shift cs' [x] c'
        rw [show (x :: c' : GoStr) = [x] ++ c' from rfl, this, ih c' cs' hsp]
        rfl

theorem ancestorPaths_len (p e : GoStr) (he : e ∈ ancestorPaths p) :
    e.length ≤ p.length := by
  unfold ancestorPaths at he
  rcases hsp : splitGo '/' p with _ | ⟨c, cs⟩ <;> rw [hsp] at he
  · rcases List.mem_singleton.mp he with rfl
    exact le_rfl
  · obtain ⟨t, ht⟩ := ancestorsGo_mem cs c e he
    rw [splitGo_fullJoin p c cs hsp] at ht
    rw [ht, List.length_append]
    exact Nat.le_add_right _ _

theorem mkdirAll_ok (fs fs' : Fs) (p : GoStr) (h : mkdirAll fs p = Except.ok fs') :
    fs'.files = fs.files ∧ fs'.dirs = ancestorPaths p ++ fs.dirs := by
  unfold mkdirAll at h
  by_cases hc : (ancestorPaths p).any (fun a => hasPath fs.files a) = true
  · rw [if_pos hc] at h
    cases h
  · rw [if_neg hc] at h
    obtain rfl := Except.ok.inj h
    exact ⟨rfl, rfl⟩

theorem mkdirAll_error (fs : Fs) (p : GoStr) (e : GoErr)
    (h : mkdirAll fs p = Except.error e) : e = GoErr.mkdirFailed := by
  unfold mkdirAll at h
  by_cases hc : (ancestorPaths p).any (fun a => hasPath fs.files a) = true
  · rw [if_pos hc] at h
    exact (Except.error.inj h).symm
  · rw [if_neg hc] at h
    cases h

theorem mkdirAll_preserves_ok (fs fs' : Fs) (p : GoStr)
    (h : mkdirAll fs p = Except.ok fs') :
    ∃ fs'', mkdirAll fs' p = Except.ok fs'' := by
  obtain ⟨hf, hd⟩ := mkdirAll_ok fs fs' p h
  unfold mkdirAll at h ⊢
  by_cases hc : (ancestorPaths p).any (fun a => hasPath fs.files a) = true
  · rw [if_pos hc] at h
    cases h
  · rw [hf, if_neg hc]
    exact ⟨_, rfl⟩

theorem hasPath_append (l1 l2 : List GoStr) (p : GoStr) :
    hasPath (l1 ++ l2) p = (hasPath l1 p || hasPath l2 p) := by
  unfold hasPath
  exact List.any_append

theorem hasPath_anc_false (p old : GoStr) (hlen : p.length < old.length) :
    hasPath (ancestorPaths p) old = false := by
  rw [hasPath, List.any_eq_false]
  intro q hq
  simp only [decide_eq_true_eq]
  intro heq
  have := ancestorPaths_len p q hq
  rw [heq] at this
  omega

theorem statOk_after_mkdir (fs fs' : Fs) (p old : GoStr)
    (h : mkdirAll fs p = Except.ok fs') (hlen : p.length < old.length) :
    statOk fs' old = statOk fs old := by
  obtain ⟨hf, hd⟩ := mkdirAll_ok fs fs' p h
  unfold statOk
  rw [hf, hd, hasPath_append, hasPath_anc_false p old hlen, Bool.false_or]

theorem canonical_ne_nil (d : GoStr) (h : matchesDigestPattern d = true) :
    canonicalDigest d ≠ [] := by
  rw [canonicalDigest_of_matches d h]
  simp [gs]

theorem canonical_len (d : GoStr) (h : matchesDigestPattern d = true) :
    (canonicalDigest d).length = 71 := by
  obtain ⟨sep, rest, hdeq, hsep, hlen, hhex⟩ := matches_decomp d h
  rw [canonicalDigest_of_matches d h, List.length_append]
  have : d.drop 7 = rest := by
    rw [hdeq]
    rfl
  rw [this, hlen]
  rfl

theorem canonical_no_slash (d : GoStr) (h : matchesDigestPattern d = true) :
    ∀ c ∈ canonicalDigest d, c ≠ '/' := by
  obtain ⟨sep, rest, hdeq, hsep, hlen, hhex⟩ := matches_decomp d h
  rw [canonicalDigest_of_matches d h]
  intro c hc
  rcases List.mem_append.mp hc with h1 | h1
  · have hpre : ∀ x ∈ gs "sha256-", x ≠ '/' := by decide
    exact hpre c h1
  · have hd7 : d.drop 7 = rest := by
      rw [hdeq]
      rfl
    rw [hd7] at h1
    rw [List.all_eq_true] at hhex
    exact hexChar_ne_slash c (hhex c h1)

theorem take2_ne_nil (d : GoStr) (h : matchesDigestPattern d = true) :
    (blobHex d).take 2 ≠ [] := by
  obtain ⟨-, hlen⟩ := blobHex_of_matches d h
  intro hc
  have := congrArg List.length hc
  rw [List.length_take, hlen] at this
  simp at this

theorem take2_len (d : GoStr) (h : matchesDigestPattern d = true) :
    ((blobHex d).take 2).length = 2 := by
  obtain ⟨-, hlen⟩ := blobHex_of_matches d h
  rw [List.length_take, hlen]
  omega

theorem take2_no_slash (d : GoStr) (h : matchesDigestPattern d = true) :
    ∀ c ∈ (blobHex d).take 2, c ≠ '/' := by
  obtain ⟨sep, rest, hdeq, hlenr, hhex⟩ := (by
    obtain ⟨sep, rest, hdeq, hsep, hlenr, hhex⟩ := matches_decomp d h
    exact ⟨sep, rest, hdeq, hlenr, hhex⟩ :
      ∃ sep rest, d = gs "sha256" ++ sep :: rest ∧ rest.length = 64 ∧
        rest.all isHexChar = true)
  intro c hc
  have hbh : blobHex d = rest := by
    rw [(blobHex_of_matches d h).1, hdeq]
    rfl
  rw [hbh] at hc
  rw [List.all_eq_true] at hhex
  exact hexChar_ne_slash c (hhex c (List.take_subset 2 rest hc))

theorem legacy_shape (mdir d : GoStr) (h : matchesDigestPattern d = true) :
    legacyBlobPath mdir d =
      filepathJoin [mdir, gs "blobs"] ++ '/' :: canonicalDigest d :=
  filepathJoin_three mdir (gs "blobs") (canonicalDigest d)
    (by simp [gs]) (canonical_ne_nil d h)

theorem sharded_shape (mdir d : GoStr) (h : matchesDigestPattern d = true) :
    shardedBlobPath mdir d =
      filepathJoin [mdir, gs "blobs", (blobHex d).take 2] ++ '/' :: canonicalDigest d :=
  filepathJoin_four mdir (gs "blobs") ((blobHex d).take 2) (canonicalDigest d)
    (by simp [gs]) (take2_ne_nil d h) (canonical_ne_nil d h)

theorem shardedDir_eq (mdir d : GoStr) (h : matchesDigestPattern d = true) :
    filepathDir (shardedBlobPath mdir d) =
      filepathJoin [mdir, gs "blobs", (blobHex d).take 2] := by
  rw [sharded_shape mdir d h]
  apply filepathDir_append _ _ _ (canonical_ne_nil d h) (canonical_no_slash d h)
  rw [filepathJoin_three mdir (gs "blobs") _ (by simp [gs]) (take2_ne_nil d h)]
  simp

theorem shardedDir_len_lt (mdir d : GoStr) (h : matchesDigestPattern d = true) :
    (filepathDir (shardedBlobPath mdir d)).length < (legacyBlobPath mdir d).length := by
  rw [shardedDir_eq mdir d h, legacy_shape mdir d h,
    filepathJoin_three mdir (gs "blobs") _ (by simp [gs]) (take2_ne_nil d h)]
  simp only [List.length_append, List.length_cons]
  have h2 := take2_len d h
  have h71 := canonical_len d h
  omega

theorem matches_ne_nil (d : GoStr) (h : matchesDigestPattern d = true) : d ≠ [] := by
  intro hd
  rw [hd] at h
  exact absurd h (by decide)

theorem canonical_ne_nil_iff (d : GoStr) : canonicalDigest d = [] ↔ d = [] := by
  constructor
  · intro hc
    have := congrArg List.length hc
    rw [canonicalDigest, replaceAllChar, List.length_map] at this
    exact List.eq_nil_of_length_eq_zero this
  · intro hd
    rw [hd]
    rfl

theorem getBlobsPath_matches (fs : Fs) (mdir d : GoStr)
    (h : matchesDigestPattern d = true) :
    GetBlobsPath fs mdir d =
      match mkdirAll fs (filepathDir (shardedBlobPath mdir d)) with
      | Except.error e => (Except.error e, fs)
      | Except.ok fs' =>
        if statOk fs' (legacyBlobPath mdir d) = true then
          (Except.ok (legacyBlobPath mdir d), fs')
        else
          (Except.ok (shardedBlobPath mdir d), fs') := by
  have hguard : ¬ (d ≠ [] ∧ matchesDigestPattern d = false) := by
    rintro ⟨-, hf⟩
    rw [h] at hf
    cases hf
  have hcanne : ¬ (canonicalDigest d = []) := by
    intro hc
    exact matches_ne_nil d h ((canonical_ne_nil_iff d).mp hc)
  have hgo := goSlice_of_matches d h
  unfold GetBlobsPath
  rw [if_neg hguard, if_neg hcanne, hgo]
  rfl

theorem getBlobsPath_empty (fs : Fs) (mdir : GoStr) :
    GetBlobsPath fs mdir [] =
      match mkdirAll fs (filepathJoin [mdir, gs "blobs"]) with
      | Except.error e => (Except.error e, fs)
      | Except.ok fs' => (Except.ok (filepathJoin [mdir, gs "blobs"]), fs') := by
  unfold GetBlobsPath
  rw [if_neg (by simp), if_pos (show canonicalDigest [] = [] from rfl)]

theorem getBlobsPath_err_mkdir (fs : Fs) (mdir d : GoStr)
    (hg : ¬ (d ≠ [] ∧ matchesDigestPattern d = false)) :
    ∀ e, (GetBlobsPath fs mdir d).1 = Except.error e → e = GoErr.mkdirFailed := by
  intro e he
  by_cases hd : d = []
  · subst hd
    cases hmk : mkdirAll fs (filepathJoin [mdir, gs "blobs"]) with
    | error e' =>
      have hform : GetBlobsPath fs mdir [] = (Except.error e', fs) := by
        rw [getBlobsPath_empty, hmk]
      rw [hform] at he
      obtain rfl := Except.error.inj he
      exact mkdirAll_error _ _ _ hmk
    | ok fs' =>
      have hform : GetBlobsPath fs mdir [] =
          (Except.ok (filepathJoin [mdir, gs "blobs"]), fs') := by
        rw [getBlobsPath_empty, hmk]
      rw [hform] at he
      cases he
  · have hm : matchesDigestPattern d = true := by
      by_contra hmf
      exact hg ⟨hd, by
        cases hb : matchesDigestPattern d
        · rfl
        · exact absurd hb hmf⟩
    cases hmk : mkdirAll fs (filepathDir (shardedBlobPath mdir d)) with
    | error e' =>
      have hform : GetBlobsPath fs mdir d = (Except.error e', fs) := by
        rw [getBlobsPath_matches fs mdir d hm, hmk]
      rw [hform] at he
      obtain rfl := Except.error.inj he
      exact mkdirAll_error _ _ _ hmk
    | ok fs' =>
      have hform : GetBlobsPath fs mdir d =
          if statOk fs' (legacyBlobPath mdir d) = true then
            (Except.ok (legacyBlobPath mdir d), fs')
          else (Except.ok (shardedBlobPath mdir d), fs') := by
        rw [getBlobsPath_matches fs mdir d hm, hmk]
      rw [hform] at he
      by_cases hst : statOk fs' (legacyBlobPath mdir d) = true
      · rw [if_pos hst] at he
        cases he
      · rw [if_neg hst] at he
        cases he

/-- C10: the slice expression hex[:2] of GetBlobsPath is always in
bounds — the function never returns the panic outcome, because the slice
is only reached behind the regex gate, which leaves exactly 64 hex
characters after stripping the sha256- prefix. -/
theorem getBlobsPath_no_panic (fs : Fs) (mdir d : GoStr) :
    (GetBlobsPath fs mdir d).1 ≠ Except.error GoErr.panicked ∧
    (matchesDigestPattern d = true → (blobHex d).length = 64) := by
  constructor
  · intro he
    by_cases hg : d ≠ [] ∧ matchesDigestPattern d = false
    · unfold GetBlobsPath at he
      rw [if_pos hg] at he
      cases Except.error.inj he
    · cases getBlobsPath_err_mkdir fs mdir d hg GoErr.panicked he
  · intro hm
    exact (blobHex_of_matches d hm).2

/-- Witness for getBlobsPath_no_panic: the hypothesis of its second part
holds at digestA and the hex under the slice has length 64. -/
theorem getBlobsPath_no_panic_witness :
    (GetBlobsPath ⟨[], []⟩ (gs "m") digestA).1 ≠ Except.error GoErr.panicked ∧
    (blobHex digestA).length = 64 :=
  ⟨(getBlobsPath_no_panic ⟨[], []⟩ (gs "m") digestA).1,
   (getBlobsPath_no_panic ⟨[], []⟩ (gs "m") digestA).2 (by decide)⟩

/-- C2: for every digest matching the pattern, GetBlobsPath
canonicalises the digest by replacing the colon with a dash — the
canonical form never contains a colon — strips the leading sha256- to
the 64-character hex digest, and computes the sharded candidate
modelsRoot/blobs/first-two-hex-characters/canonical-digest. -/
theorem blobsPath_sharded_candidate (mdir d : GoStr)
    (h : matchesDigestPattern d = true) :
    canonicalDigest d = gs "sha256-" ++ d.drop 7 ∧
    (∀ c ∈ canonicalDigest d, c ≠ ':') ∧
    blobHex d = d.drop 7 ∧ (blobHex d).length = 64 ∧
    shardedBlobPath mdir d =
      filepathJoin [mdir, gs "blobs"] ++ ('/' :: (d.drop 7).take 2) ++
        ('/' :: (gs "sha256-" ++ d.drop 7)) := by
  obtain ⟨hbh, hlen⟩ := blobHex_of_matches d h
  have hcanon := canonicalDigest_of_matches d h
  refine ⟨hcanon, ?_, hbh, hlen, ?_⟩
  · rw [hcanon]
    intro c hc
    rcases List.mem_append.mp hc with h1 | h1
    · have hpre : ∀ x ∈ gs "sha256-", x ≠ ':' := by decide
      exact hpre c h1
    · obtain ⟨sep, rest, hdeq, hsep, hlenr, hhex⟩ := matches_decomp d h
      have hd7 : d.drop 7 = rest := by
        rw [hdeq]
        rfl
      rw [hd7] at h1
      rw [List.all_eq_true] at hhex
      exact hexChar_ne_colon c (hhex c h1)
  · rw [sharded_shape mdir d h,
      filepathJoin_three mdir (gs "blobs") _ (by simp [gs]) (take2_ne_nil d h),
      hbh, hcanon]

/-- Witness for blobsPath_sharded_candidate at digestA. -/
theorem blobsPath_sharded_candidate_witness :
    canonicalDigest digestA = gs "sha256-" ++ digestA.drop 7 ∧
    (∀ c ∈ canonicalDigest digestA, c ≠ ':') ∧
    blobHex digestA = digestA.drop 7 ∧ (blobHex digestA).length = 64 ∧
    shardedBlobPath (gs "m") digestA =
      filepathJoin [gs "m", gs "blobs"] ++ ('/' :: (digestA.drop 7).take 2) ++
        ('/' :: (gs "sha256-" ++ digestA.drop 7)) :=
  blobsPath_sharded_candidate (gs "m") digestA (by decide)

/-- C1 as amended: for a digest matching the pattern, provided the
sharded parent directory can be created, GetBlobsPath returns the legacy
unsharded path whenever it exists on disk at call time — even when the
sharded directory also exists — and otherwise returns the sharded
candidate path; when directory creation fails it returns an error
instead of either path. -/
theorem legacy_fallback (fs fs' : Fs) (mdir d : GoStr)
    (h : matchesDigestPattern d = true)
    (hmk : mkdirAll fs (filepathDir (shardedBlobPath mdir d)) = Except.ok fs') :
    (statOk fs (legacyBlobPath mdir d) = true →
      GetBlobsPath fs mdir d = (Except.ok (legacyBlobPath mdir d), fs')) ∧
    (statOk fs (legacyBlobPath mdir d) = false →
      GetBlobsPath fs mdir d = (Except.ok (shardedBlobPath mdir d), fs')) := by
  have hst : statOk fs' (legacyBlobPath mdir d) = statOk fs (legacyBlobPath mdir d) :=
    statOk_after_mkdir fs fs' _ _ hmk (shardedDir_len_lt mdir d h)
  have hform : GetBlobsPath fs mdir d =
      if statOk fs' (legacyBlobPath mdir d) = true then
        (Except.ok (legacyBlobPath mdir d), fs')
      else (Except.ok (shardedBlobPath mdir d), fs') := by
    rw [getBlobsPath_matches fs mdir d h, hmk]
  rw [hform, hst]
  constructor
  · intro hleg
    rw [if_pos hleg]
  · intro hleg
    rw [if_neg (by rw [hleg]; simp)]

/-- Witness for legacy_fallback: with the legacy blob on disk the legacy
path is returned even though the sharded directory exists, and without it
the sharded candidate is returned. -/
theorem legacy_fallback_witness :
    GetBlobsPath fsLegacyBoth (gs "m") digestA =
      (Except.ok (legacyBlobPath (gs "m") digestA), fsLegacyBoth2) ∧
    GetBlobsPath fsShardOnly (gs "m") digestA =
      (Except.ok (shardedBlobPath (gs "m") digestA), fsShardOnly2) :=
  ⟨(legacy_fallback fsLegacyBoth fsLegacyBoth2 (gs "m") digestA
      (by decide) (by decide)).1 (by decide),
   (legacy_fallback fsShardOnly fsShardOnly2 (gs "m") digestA
      (by decide) (by decide)).2 (by decide)⟩

/-- Counterexample to C1 as stated: the legacy path exists on disk, yet
GetBlobsPath returns a directory-creation error — not the legacy path —
because a regular file occupies the sharded parent directory path. -/
theorem legacy_fallback_cex :
    statOk fsShardBlocked (legacyBlobPath (gs "m") digestA) = true ∧
    (GetBlobsPath fsShardBlocked (gs "m") digestA).1 =
      Except.error GoErr.mkdirFailed ∧
    (GetBlobsPath fsShardBlocked (gs "m") digestA).1 ≠
      Except.ok (legacyBlobPath (gs "m") digestA) := by decide

/-- C3 as amended: GetBlobsPath fails with the invalid-digest error
exactly when its argument is non-empty and fails the pattern, and that
rejection neither depends on nor changes the filesystem state; the empty
digest is accepted as a special case — it never fails with the
invalid-digest error, and whenever the blobs directory can be created it
succeeds with a path ending in /blobs, a second call succeeding as well
even though the directory then already exists; if a regular file blocks
the blobs directory, the call fails with a directory-creation error. -/
theorem blobsPath_validation :
    (∀ fs mdir d, (GetBlobsPath fs mdir d).1 = Except.error GoErr.invalidDigestFormat ↔
      (d ≠ [] ∧ matchesDigestPattern d = false)) ∧
    (∀ fs mdir d, d ≠ [] → matchesDigestPattern d = false →
      GetBlobsPath fs mdir d = (Except.error GoErr.invalidDigestFormat, fs)) ∧
    (∀ fs fs' mdir, mdir ≠ [] →
      mkdirAll fs (filepathJoin [mdir, gs "blobs"]) = Except.ok fs' →
      GetBlobsPath fs mdir [] = (Except.ok (mdir ++ '/' :: gs "blobs"), fs') ∧
      (GetBlobsPath fs' mdir []).1 = Except.ok (mdir ++ '/' :: gs "blobs")) := by
  have hguard : ∀ fs mdir (d : GoStr), d ≠ [] → matchesDigestPattern d = false →
      GetBlobsPath fs mdir d = (Except.error GoErr.invalidDigestFormat, fs) := by
    intro fs mdir d hne hf
    unfold GetBlobsPath
    rw [if_pos ⟨hne, hf⟩]
  refine ⟨?_, hguard, ?_⟩
  · intro fs mdir d
    constructor
    · intro hres
      by_cases hg : d ≠ [] ∧ matchesDigestPattern d = false
      · exact hg
      · cases getBlobsPath_err_mkdir fs mdir d hg GoErr.invalidDigestFormat hres
    · rintro ⟨hne, hf⟩
      rw [hguard fs mdir d hne hf]
  · intro fs fs' mdir hmd hmk
    have hjoin : filepathJoin [mdir, gs "blobs"] = mdir ++ '/' :: gs "blobs" := by
      simp [filepathJoin, joinNonEmpty, hmd]
    constructor
    · have hform : GetBlobsPath fs mdir [] =
          (Except.ok (filepathJoin [mdir, gs "blobs"]), fs') := by
        rw [getBlobsPath_empty, hmk]
      rw [hform, hjoin]
    · obtain ⟨fs'', hmk2⟩ := mkdirAll_preserves_ok fs fs' _ hmk
      have hform : GetBlobsPath fs' mdir [] =
          (Except.ok (filepathJoin [mdir, gs "blobs"]), fs'') := by
        rw [getBlobsPath_empty, hmk2]
      rw [hform, hjoin]

/-- Witness for blobsPath_validation: a malformed digest is rejected
without touching an empty store, and the empty digest succeeds twice in
a row with the path m/blobs. -/
theorem blobsPath_validation_witness :
    ((GetBlobsPath ⟨[], []⟩ (gs "m") (gs "md5:xyz")).1 =
        Except.error GoErr.invalidDigestFormat ↔
      (gs "md5:xyz" ≠ [] ∧ matchesDigestPattern (gs "md5:xyz") = false)) ∧
    GetBlobsPath ⟨[], []⟩ (gs "m") (gs "md5:xyz") =
      (Except.error GoErr.invalidDigestFormat, ⟨[], []⟩) ∧
    GetBlobsPath ⟨[], []⟩ (gs "m") [] =
      (Except.ok (gs "m" ++ '/' :: gs "blobs"), fsMB) ∧
    (GetBlobsPath fsMB (gs "m") []).1 = Except.ok (gs "m" ++ '/' :: gs "blobs") :=
  ⟨blobsPath_validation.1 ⟨[], []⟩ (gs "m") (gs "md5:xyz"),
   blobsPath_validation.2.1 ⟨[], []⟩ (gs "m") (gs "md5:xyz") (by decide) (by decide),
   (blobsPath_validation.2.2 ⟨[], []⟩ fsMB (gs "m") (by decide) (by decide)).1,
   (blobsPath_validation.2.2 ⟨[], []⟩ fsMB (gs "m") (by decide) (by decide)).2⟩

/-- Counterexample to C3 as stated: with a regular file at m/blobs the
empty digest does not succeed — GetBlobsPath returns the
directory-creation error, so the empty digest does not always succeed. -/
theorem blobsPath_validation_cex :
    (GetBlobsPath fsFileAtBlobs (gs "m") []).1 = Except.error GoErr.mkdirFailed := by
  decide

theorem canonical_inj_of_case (d1 : GoStr) :
    ∀ d2 : GoStr, sameUpToHexCase d1 d2 = true →
      canonicalDigest d1 = canonicalDigest d2 → d1 = d2 := by
  induction d1 with
  | nil =>
    intro d2 hcase hceq
    cases d2 with
    | nil => rfl
    | cons b bs => exact absurd hcase (by simp [sameUpToHexCase])
  | cons a as ih =>
    intro d2 hcase hceq
    cases d2 with
    | nil => exact absurd hcase (by simp [sameUpToHexCase])
    | cons b bs =>
      simp only [sameUpToHexCase, Bool.and_eq_true, Bool.or_eq_true,
        Bool.not_eq_true', decide_eq_true_eq, decide_eq_false_iff_not] at hcase
      obtain ⟨hab, htail⟩ := hcase
      simp only [canonicalDigest, replaceAllChar, List.map_cons, List.cons.injEq] at hceq
      obtain ⟨hhead, htl⟩ := hceq
      have ha : a = b := by
        rcases hab with h1 | ⟨hne, hlow⟩
        · exact h1
        · exfalso
          by_cases ha1 : a = ':'
          · rw [if_pos ha1] at hhead
            by_cases hb1 : b = ':'
            · exact hne (ha1.trans hb1.symm)
            · rw [if_neg hb1] at hhead
              rw [ha1, ← hhead] at hlow
              exact absurd hlow (by decide)
          · rw [if_neg ha1] at hhead
            by_cases hb1 : b = ':'
            · rw [if_pos hb1] at hhead
              rw [hb1, hhead] at hlow
              exact absurd hlow (by decide)
            · rw [if_neg hb1] at hhead
              exact hne hhead
      rw [ha, ih bs htail (by
        simp only [canonicalDigest, replaceAllChar]
        exact htl)]

theorem getBlobsPath_ok_shape (fs : Fs) (mdir d p : GoStr)
    (h : matchesDigestPattern d = true)
    (hr : (GetBlobsPath fs mdir d).1 = Except.ok p) :
    p = legacyBlobPath mdir d ∨ p = shardedBlobPath mdir d := by
  cases hmk : mkdirAll fs (filepathDir (shardedBlobPath mdir d)) with
  | error e =>
    have hform : GetBlobsPath fs mdir d = (Except.error e, fs) := by
      rw [getBlobsPath_matches fs mdir d h, hmk]
    rw [hform] at hr
    cases hr
  | ok fs' =>
    have hform : GetBlobsPath fs mdir d =
        if statOk fs' (legacyBlobPath mdir d) = true then
          (Except.ok (legacyBlobPath mdir d), fs')
        else (Except.ok (shardedBlobPath mdir d), fs') := by
      rw [getBlobsPath_matches fs mdir d h, hmk]
    rw [hform] at hr
    by_cases hst : statOk fs' (legacyBlobPath mdir d) = true
    · rw [if_pos hst] at hr
      exact Or.inl (Except.ok.inj hr).symm
    · rw [if_neg hst] at hr
      exact Or.inr (Except.ok.inj hr).symm

theorem blobPath_ends_with_canonical (fs : Fs) (mdir d p : GoStr)
    (h : matchesDigestPattern d = true)
    (hr : (GetBlobsPath fs mdir d).1 = Except.ok p) :
    ∃ q, p = q ++ '/' :: canonicalDigest d := by
  rcases getBlobsPath_ok_shape fs mdir d p h hr with hp | hp
  · exact ⟨filepathJoin [mdir, gs "blobs"], by rw [hp, legacy_shape mdir d h]⟩
  · exact ⟨filepathJoin [mdir, gs "blobs", (blobHex d).take 2], by
      rw [hp, sharded_shape mdir d h]⟩

/-- C9: for two pattern-matching digests that differ only in the letter
case of their hex characters, GetBlobsPath keeps the hex case of each
input verbatim in the returned path — every returned path ends with the
canonical digest built from the unchanged input hex — and therefore
returns two distinct paths for the two case variants. -/
theorem blobsPath_case_sensitive (fs : Fs) (mdir d1 d2 p1 p2 : GoStr)
    (h1 : matchesDigestPattern d1 = true) (h2 : matchesDigestPattern d2 = true)
    (hcase : sameUpToHexCase d1 d2 = true) (hne : d1 ≠ d2)
    (hr1 : (GetBlobsPath fs mdir d1).1 = Except.ok p1)
    (hr2 : (GetBlobsPath fs mdir d2).1 = Except.ok p2) :
    (∃ q, p1 = q ++ '/' :: (gs "sha256-" ++ d1.drop 7)) ∧
    (∃ q, p2 = q ++ '/' :: (gs "sha256-" ++ d2.drop 7)) ∧ p1 ≠ p2 := by
  have hc1 := canonicalDigest_of_matches d1 h1
  have hc2 := canonicalDigest_of_matches d2 h2
  obtain ⟨q1, hq1⟩ := blobPath_ends_with_canonical fs mdir d1 p1 h1 hr1
  obtain ⟨q2, hq2⟩ := blobPath_ends_with_canonical fs mdir d2 p2 h2 hr2
  refine ⟨⟨q1, by rw [hq1, hc1]⟩, ⟨q2, by rw [hq2, hc2]⟩, ?_⟩
  intro hpeq
  have hcanne : canonicalDigest d1 ≠ canonicalDigest d2 := by
    intro hc
    exact hne (canonical_inj_of_case d1 d2 hcase hc)
  rw [hq1, hq2] at hpeq
  have hlen : ('/' :: canonicalDigest d1).length = ('/' :: canonicalDigest d2).length := by
    simp only [List.length_cons, canonical_len d1 h1, canonical_len d2 h2]
  obtain ⟨-, htl⟩ := List.append_inj' hpeq hlen
  exact hcanne (List.cons.inj htl).2

/-- Witness for blobsPath_case_sensitive at digestA and digestB, which
differ only in the case of the final hex character. -/
theorem blobsPath_case_sensitive_witness :
    (∃ q, shardedBlobPath (gs "m") digestA =
      q ++ '/' :: (gs "sha256-" ++ digestA.drop 7)) ∧
    (∃ q, shardedBlobPath (gs "m") digestB =
      q ++ '/' :: (gs "sha256-" ++ digestB.drop 7)) ∧
    shardedBlobPath (gs "m") digestA ≠ shardedBlobPath (gs "m") digestB :=
  blobsPath_case_sensitive ⟨[], []⟩ (gs "m") digestA digestB
    (shardedBlobPath (gs "m") digestA) (shardedBlobPath (gs "m") digestB)
    (by decide) (by decide) (by decide) (by decide) (by decide) (by decide)
